import Mathlib

/-!
Verification of the static source-analysis core in
`BE/py_helpers/parse_code.py`: per-file AST extraction
(`parse_python_file`), dotted-name resolution (`get_name_from_node`,
`get_decorator_name`), repository scanning (`scan_repo_for_python`) and
call-graph construction (`build_call_graph`), shallowly embedded in Lean.
-/

namespace CodebaseGenius

/-- Model of the Python `ast` nodes that `parse_code.py` inspects.
Constructors carry exactly the fields the source reads: `functionDef`
carries name, lineno, positional parameter names (`node.args.args`),
decorator list, optional return annotation and body; `classDef` carries
name, lineno, base expressions and body; `call` carries the callee
expression, arguments and lineno; `importStmt` / `importFrom` carry
`(name, asname)` alias pairs and lineno.  `other` stands for every node
class the source does not handle specially (Subscript, Lambda, ...),
tagged with its Python class name and its child nodes. -/
inductive Node : Type where
  | module : List Node → Node
  | functionDef : String → Nat → List String → List Node → Option Node → List Node → Node
  | classDef : String → Nat → List Node → List Node → Node
  | call : Node → List Node → Nat → Node
  | name : String → Node
  | attribute : Node → String → Node
  | ret : Option Node → Node
  | exprStmt : Node → Node
  | constant : String → Node
  | importStmt : List (String × Option String) → Nat → Node
  | importFrom : Option String → List (String × Option String) → Nat → Node
  | other : String → List Node → Node

/-- The AST-valued children of a node, in CPython field order
(`ast.iter_child_nodes`): for `FunctionDef` the fields are args, body,
decorator_list, returns (parameter names are modelled as plain strings,
so the `arguments` child contributes no nodes); for `ClassDef` they are
bases then body. -/
def Node.children : Node → List Node
  | .module body => body
  | .functionDef _ _ _ decs rets body => body ++ decs ++ rets.toList
  | .classDef _ _ bases body => bases ++ body
  | .call f args _ => f :: args
  | .name _ => []
  | .attribute v _ => [v]
  | .ret v => v.toList
  | .exprStmt v => [v]
  | .constant _ => []
  | .importStmt _ _ => []
  | .importFrom _ _ _ => []
  | .other _ cs => cs

mutual

/-- Size measure used to justify termination of the breadth-first walk. -/
def nodeSize : Node → Nat
  | .module body => 1 + nodeListSize body
  | .functionDef _ _ _ decs rets body =>
      1 + nodeListSize body + nodeListSize decs + nodeOptSize rets
  | .classDef _ _ bases body => 1 + nodeListSize bases + nodeListSize body
  | .call f args _ => 1 + nodeSize f + nodeListSize args
  | .name _ => 1
  | .attribute v _ => 1 + nodeSize v
  | .ret v => 1 + nodeOptSize v
  | .exprStmt v => 1 + nodeSize v
  | .constant _ => 1
  | .importStmt _ _ => 1
  | .importFrom _ _ _ => 1
  | .other _ cs => 1 + nodeListSize cs

/-- Total size of a list of nodes. -/
def nodeListSize : List Node → Nat
  | [] => 0
  | n :: ns => nodeSize n + nodeListSize ns

/-- Size of an optional node. -/
def nodeOptSize : Option Node → Nat
  | none => 0
  | some n => nodeSize n

end

theorem nodeListSize_append (l1 l2 : List Node) :
    nodeListSize (l1 ++ l2) = nodeListSize l1 + nodeListSize l2 := by
  induction l1 with
  | nil => simp [nodeListSize]
  | cons n ns ih => simp [nodeListSize, ih]; omega

theorem nodeListSize_toList (o : Option Node) :
    nodeListSize o.toList = nodeOptSize o := by
  cases o <;> simp [nodeListSize, nodeOptSize, Option.toList]

theorem nodeListSize_children_lt (n : Node) :
    nodeListSize n.children < nodeSize n := by
  cases n
  all_goals simp only [Node.children, nodeSize, nodeListSize,
    nodeListSize_append, nodeListSize_toList]
  all_goals omega

/-- Queue-based breadth-first traversal, modelling `ast.walk`: pop a
node from the front, yield it, and push its children at the back.  The
`Nat` argument is recursion fuel making the definition structurally
recursive (hence kernel-computable); `walkAux_fuel_irrelevant` below
shows any fuel of at least `nodeListSize q` — in particular the amount
supplied by `astWalk` — yields the same traversal, so the fuel never
cuts the walk short. -/
def walkAux : Nat → List Node → List Node
  | _, [] => []
  | 0, _ :: _ => []
  | Nat.succ k, n :: q => n :: walkAux k (q ++ n.children)

/-- Models `ast.walk(root)`: every descendant of `root` (including `root`),
in breadth-first order. -/
def astWalk (root : Node) : List Node := walkAux (nodeSize root) [root]

theorem nodeSize_eq_children (n : Node) :
    nodeSize n = 1 + nodeListSize n.children := by
  cases n
  all_goals simp only [Node.children, nodeSize, nodeListSize,
    nodeListSize_append, nodeListSize_toList]
  all_goals omega

theorem walkAux_fuel_irrelevant :
    ∀ (k1 k2 : Nat) (q : List Node), nodeListSize q ≤ k1 →
      nodeListSize q ≤ k2 → walkAux k1 q = walkAux k2 q := by
  intro k1
  induction k1 with
  | zero =>
      intro k2 q hq1 _
      match q with
      | [] => cases k2 <;> rfl
      | n :: q' =>
          exfalso
          have := nodeSize_eq_children n
          simp [nodeListSize] at hq1
          omega
  | succ k ih =>
      intro k2 q hq1 hq2
      match q with
      | [] => cases k2 <;> rfl
      | n :: q' =>
          match k2 with
          | 0 =>
              exfalso
              have := nodeSize_eq_children n
              simp [nodeListSize] at hq2
              omega
          | Nat.succ k2' =>
              have hc := nodeListSize_children_lt n
              simp only [walkAux]
              rw [ih k2' (q' ++ n.children)]
              · simp [nodeListSize, nodeListSize_append] at hq1 ⊢
                omega
              · simp [nodeListSize, nodeListSize_append] at hq2 ⊢
                omega

/-- Holds when `x` occurs somewhere in the tree rooted at `n` (reflexive-transitive
closure of the child relation). -/
inductive SubNode : Node → Node → Prop where
  | refl (n : Node) : SubNode n n
  | step {x c n : Node} : c ∈ n.children → SubNode x c → SubNode x n

theorem mem_walkAux_of_subNode :
    ∀ (k : Nat) (q : List Node), nodeListSize q ≤ k →
      ∀ x n, n ∈ q → SubNode x n → x ∈ walkAux k q := by
  intro k
  induction k with
  | zero =>
      intro q hq x n hn _
      exfalso
      match q, hn with
      | m :: ms, _ =>
          have h1 : 1 ≤ nodeSize m := by
            cases m <;> (simp only [nodeSize]; omega)
          simp [nodeListSize] at hq
          omega
  | succ k ih =>
      intro q hq x n hn hsub
      match q, hn with
      | m :: ms, hn =>
        rw [walkAux]
        rcases List.mem_cons.mp hn with h | h
        · subst h
          cases hsub with
          | refl => exact List.mem_cons_self _ _
          | step hc hsub2 =>
              apply List.mem_cons_of_mem
              apply ih (ms ++ n.children) _ x _ (by simp [hc]) hsub2
              have := nodeListSize_children_lt n
              simp [nodeListSize, nodeListSize_append] at hq ⊢
              omega
        · rw [List.mem_cons]
          right
          apply ih (ms ++ m.children) _ x n (by simp [h]) hsub
          have := nodeListSize_children_lt m
          simp [nodeListSize, nodeListSize_append] at hq ⊢
          omega

theorem mem_astWalk_of_subNode {x root : Node} (h : SubNode x root) :
    x ∈ astWalk root := by
  apply mem_walkAux_of_subNode (nodeSize root) [root] (by simp [nodeListSize])
    x root (List.mem_singleton_self root) h

/-- The Python class name of the ast node a `Node` models, as it appears
in the node's `repr`. -/
def pyClassName : Node → String
  | .module _ => "Module"
  | .functionDef _ _ _ _ _ _ => "FunctionDef"
  | .classDef _ _ _ _ => "ClassDef"
  | .call _ _ _ => "Call"
  | .name _ => "Name"
  | .attribute _ _ => "Attribute"
  | .ret _ => "Return"
  | .exprStmt _ => "Expr"
  | .constant _ => "Constant"
  | .importStmt _ _ => "Import"
  | .importFrom _ _ _ => "ImportFrom"
  | .other kind _ => kind

/-- Models Python `str(node)` on an ast node: `ast.AST` defines no
`__str__`, so `str` falls back to the default object repr
`<ast.ClassName object at 0x...>`.  The memory address is elided here;
no property proved below depends on it, only on the fact that this repr
is never a dotted identifier path. -/
def reprOfNode (n : Node) : String :=
  "<ast." ++ pyClassName n ++ " object>"

/-- Embeds `get_name_from_node` (parse_code.py lines 116-126): a `Name` node
resolves to its identifier; an `Attribute` node to
`resolve(value) + "." + attr` when the value resolves (Python truthiness
of the string) and to `attr` alone otherwise; a `Call` node resolves
through its own callee; every other node kind yields `""`. -/
def get_name_from_node : Node → String
  | .name id => id
  | .attribute v attr =>
      let value := get_name_from_node v
      if value ≠ "" then value ++ "." ++ attr else attr
  | .call f _ _ => get_name_from_node f
  | _ => ""

/-- Embeds `get_decorator_name` (parse_code.py lines 129-135): handles only
`Name` and `Call` decorators; any other decorator node (notably a bare
`Attribute` such as `@app.route`) falls through to `str(node)`. -/
def get_decorator_name : Node → String
  | .name id => id
  | .call f _ _ => get_name_from_node f
  | n => reprOfNode n

/-- Embeds `get_annotation_name` (parse_code.py lines 138-140). -/
def get_annotation_name (node : Node) : String :=
  get_name_from_node node

/-- One entry of the `functions` list produced by `parse_python_file`. -/
structure FunctionInfo where
  name : String
  lineno : Nat
  args : List String
  decorators : List String
  returns : Option String
  docstring : Option String
deriving DecidableEq

/-- One entry of the `classes` list produced by `parse_python_file`. -/
structure ClassInfo where
  name : String
  lineno : Nat
  bases : List String
  methods : List String
  docstring : Option String
deriving DecidableEq

/-- One entry of the `calls` list produced by `parse_python_file`. -/
structure CallInfo where
  func : String
  lineno : Nat
deriving DecidableEq

/-- One entry of the `imports` list produced by `parse_python_file`
(the Python key `alias` is rendered as `aliasName`). -/
structure ImportInfo where
  module : String
  aliasName : Option String
  lineno : Nat
deriving DecidableEq

/-- The per-file result dict of `parse_python_file`.  A success carries
the four extracted lists and no error; a failure carries
`success = false` and the error message.  The failure dict stores no
list fields, and every consumer reads them with `.get("functions", [])`
etc., so the empty lists model a failure record exactly as its
consumers observe it. -/
structure ParseResult where
  success : Bool
  functions : List FunctionInfo
  classes : List ClassInfo
  calls : List CallInfo
  imports : List ImportInfo
  error : Option String
deriving DecidableEq

/-- Models `ast.get_docstring(node)`: the docstring when the first
statement of the body is a bare string literal, else `None`.  The
`inspect.cleandoc` normalization applied by the library is not
modelled; the stored `String` stands for the cleaned text. -/
def get_docstring (body : List Node) : Option String :=
  match body with
  | .exprStmt (.constant s) :: _ => some s
  | _ => none

/-- Extraction of a `functions` entry (parse_code.py lines 36-44). -/
def funcInfoOfNode : Node → Option FunctionInfo
  | .functionDef nm ln args decs rets body =>
      some { name := nm, lineno := ln, args := args,
             decorators := decs.map get_decorator_name,
             returns := rets.map get_annotation_name,
             docstring := get_docstring body }
  | _ => none

/-- Extraction of a `classes` entry (parse_code.py lines 47-67): base
names are kept only when `get_name_from_node` yields a truthy string;
methods are the names of `FunctionDef` nodes that are direct children
of the class body. -/
def classInfoOfNode : Node → Option ClassInfo
  | .classDef nm ln bases body =>
      some { name := nm, lineno := ln,
             bases := bases.filterMap (fun b =>
               let s := get_name_from_node b
               if s ≠ "" then some s else none),
             methods := body.filterMap (fun item =>
               match item with
               | .functionDef mnm _ _ _ _ _ => some mnm
               | _ => none),
             docstring := get_docstring body }
  | _ => none

/-- Extraction of a `calls` entry (parse_code.py lines 70-76): recorded
only when the callee resolves to a truthy name. -/
def callInfoOfNode : Node → Option CallInfo
  | .call f _ ln =>
      let s := get_name_from_node f
      if s ≠ "" then some { func := s, lineno := ln } else none
  | _ => none

/-- Extraction of `imports` entries (parse_code.py lines 79-94): a
from-import with `node.module = None` is recorded as
`"" + "." + name` (Python `node.module or ""`). -/
def importInfosOfNode : Node → List ImportInfo
  | .importStmt names ln =>
      names.map (fun a => { module := a.1, aliasName := a.2, lineno := ln })
  | .importFrom mod names ln =>
      names.map (fun a =>
        { module := mod.getD "" ++ "." ++ a.1, aliasName := a.2, lineno := ln })
  | _ => []

/-- The exceptions the `try` block of `parse_python_file` can observe:
a `SyntaxError` from `ast.parse`, or any other `Exception` raised while
reading or parsing. -/
inductive PyExc : Type where
  | syntaxError : String → PyExc
  | otherExc : String → PyExc
deriving DecidableEq

/-- The error message each handler of `parse_python_file` formats. -/
def excMessage : PyExc → String
  | .syntaxError s => "Syntax error: " ++ s
  | .otherExc s => "Parse error: " ++ s

/-- Embeds `parse_python_file` (parse_code.py lines 12-113).  Its input models
the outcome of reading and `ast.parse`-ing the file at the given path:
either the parsed tree or the exception raised.  On success the AST is
walked (`ast.walk`) and each node is classified by the
`isinstance` chain; on any exception the corresponding failure dict is
returned — the function itself never raises. -/
def parse_python_file (input : Except PyExc Node) : ParseResult :=
  match input with
  | .ok tree =>
      let nodes := astWalk tree
      { success := true,
        functions := nodes.filterMap funcInfoOfNode,
        classes := nodes.filterMap classInfoOfNode,
        calls := nodes.filterMap callInfoOfNode,
        imports := nodes.flatMap importInfosOfNode,
        error := none }
  | .error e =>
      { success := false, functions := [], classes := [], calls := [],
        imports := [], error := some (excMessage e) }

/-- Models Python `str.endswith(suffix)`. -/
def pyEndsWith (s suff : String) : Bool :=
  suff.data.isSuffixOf s.data

/-- A snapshot of a filesystem subtree.  A `file` carries its basename
and the outcome of reading-and-parsing it (the input
`parse_python_file` observes for that path); a `dir` carries its
basename and its entries in directory-listing (`os.scandir`) order. -/
inductive FSNode : Type where
  | file : String → Except PyExc Node → FSNode
  | dir : String → List FSNode → FSNode

/-- The module-level `ignore_dirs` set of `scan_repo_for_python`. -/
def ignore_dirs : List String :=
  [".git", "node_modules", "__pycache__", "venv", ".venv", "dist", "build"]

/-- Models `os.path.relpath(os.path.join(dirpath, filename), root)`: the
repo-relative path of an entry named `fn` inside the directory whose
repo-relative path is `d` (`""` for the root itself). -/
def joinRel (d fn : String) : String :=
  if d = "" then fn else d ++ "/" ++ fn

mutual

/-- The body of the `os.walk` loop in `scan_repo_for_python`
(parse_code.py lines 158-168), applied to one directory: `os.walk`
yields this directory's triple first — recording every filename ending
in `".py"`, in listing order, under its relative path — and then
descends top-down into each subdirectory whose basename survives the
`ignore_dirs` filter, in listing order.  A non-directory node yields no
walk triples (as `os.walk` on a file path does). -/
def walkFS (relDir : String) : FSNode → List (String × ParseResult)
  | .file _ _ => []
  | .dir _ entries =>
      entries.filterMap (fun e =>
        match e with
        | .file fn content =>
            if pyEndsWith fn ".py" then
              some (joinRel relDir fn, parse_python_file content)
            else none
        | .dir _ _ => none)
      ++ walkDirs relDir entries

/-- Descend into the subdirectories among `entries`, skipping ignored
basenames (the in-place `dirnames[:] =` filter). -/
def walkDirs (relDir : String) : List FSNode → List (String × ParseResult)
  | [] => []
  | e :: rest =>
      (match e with
       | .dir dn _ =>
           if dn ∈ ignore_dirs then [] else walkFS (joinRel relDir dn) e
       | .file _ _ => []) ++ walkDirs relDir rest

end

/-- Embeds `scan_repo_for_python` (parse_code.py lines 143-170).  `none` models
a root path that does not exist or is not a directory: `os.walk` (with
its default `onerror=None`) swallows the listing error and yields no
triples, so the loop never runs and the empty results dict is
returned — no exception is raised.  The results dict, keyed by relative
path in insertion order, is modelled as the association list in that
order. -/
def scan_repo_for_python (root : Option FSNode) : List (String × ParseResult) :=
  match root with
  | none => []
  | some r => walkFS "" r

/-- Python dict key-membership test (`k in d`). -/
def hasKey (m : List (String × String)) (k : String) : Bool :=
  m.any (fun p => p.1 == k)

/-- Python dict assignment `d[k] = v`: if the key is present its value
is replaced in place (insertion order keeps the key's original
position), otherwise the pair is appended. -/
def dictInsert (m : List (String × String)) (k v : String) :
    List (String × String) :=
  if hasKey m k then m.map (fun p => if p.1 == k then (k, v) else p)
  else m ++ [(k, v)]

/-- The `function_locations` dict of `build_call_graph` (parse_code.py
lines 185-191): for every successful file, in results order, every
declared function name is assigned that file's path — a plain dict
assignment, so a later declaration of the same name overwrites the
earlier location. -/
def function_locations (parse_results : List (String × ParseResult)) :
    List (String × String) :=
  parse_results.foldl (fun m pr =>
    if pr.2.success then
      pr.2.functions.foldl (fun m2 func => dictInsert m2 func.name pr.1) m
    else m) []

/-- The edges contributed by one file (the body of the second loop of
`build_call_graph`, parse_code.py lines 194-208): a failed file is
skipped; otherwise, for each function of the file and each call
recorded anywhere in the file, the edge `(caller, callee)` is appended
whenever `caller` is truthy and `callee` is a key of
`function_locations`. -/
def fileEdges (locs : List (String × String)) (pr : String × ParseResult) :
    List (String × String) :=
  if pr.2.success then
    pr.2.functions.flatMap (fun func =>
      pr.2.calls.filterMap (fun call =>
        if (func.name != "") && hasKey locs call.func then
          some (func.name, call.func)
        else none))
  else []

/-- Embeds `build_call_graph` (parse_code.py lines 173-210): the concatenation,
in results order, of every file's contributed edges — a plain list of
`(caller, callee)` tuples. -/
def build_call_graph (parse_results : List (String × ParseResult)) :
    List (String × String) :=
  parse_results.flatMap (fileEdges (function_locations parse_results))

/-- All function names declared in successful files, in results order:
the names over which `function_locations` accumulates its keys. -/
def declaredFunNames (parse_results : List (String × ParseResult)) :
    List String :=
  parse_results.flatMap (fun pr =>
    if pr.2.success then pr.2.functions.map (fun f => f.name) else [])

theorem hasKey_iff_mem_keys (m : List (String × String)) (k : String) :
    hasKey m k = true ↔ k ∈ m.map Prod.fst := by
  simp [hasKey, List.any_eq_true, List.mem_map]

theorem keys_dictInsert (m : List (String × String)) (k v : String) :
    (dictInsert m k v).map Prod.fst =
      if hasKey m k then m.map Prod.fst else m.map Prod.fst ++ [k] := by
  unfold dictInsert
  by_cases h : hasKey m k = true
  · rw [if_pos h, if_pos h, List.map_map]
    apply List.map_congr_left
    intro p _
    by_cases hp : p.1 = k
    · simp [Function.comp, beq_iff_eq, hp]
    · simp [Function.comp, beq_iff_eq, hp]
  · rw [if_neg h, if_neg h]
    simp

theorem hasKey_dictInsert (m : List (String × String)) (k v k' : String) :
    hasKey (dictInsert m k v) k' = true ↔ k' = k ∨ hasKey m k' = true := by
  rw [hasKey_iff_mem_keys, keys_dictInsert]
  by_cases h : hasKey m k = true
  · rw [if_pos h, ← hasKey_iff_mem_keys]
    constructor
    · exact Or.inr
    · rintro (rfl | h2)
      · exact h
      · exact h2
  · rw [if_neg h]
    rw [List.mem_append, List.mem_singleton, ← hasKey_iff_mem_keys]
    tauto

theorem keys_nodup_dictInsert (m : List (String × String)) (k v : String)
    (h : (m.map Prod.fst).Nodup) : ((dictInsert m k v).map Prod.fst).Nodup := by
  rw [keys_dictInsert]
  split
  · exact h
  · rw [List.nodup_append]
    refine ⟨h, List.nodup_singleton k, ?_⟩
    intro a ha hb
    rw [List.mem_singleton] at hb
    subst hb
    have := (hasKey_iff_mem_keys m a).mpr ha
    simp_all

theorem hasKey_funcFold (p : String) :
    ∀ (fs : List FunctionInfo) (m : List (String × String)) (k : String),
      hasKey (fs.foldl (fun m2 func => dictInsert m2 func.name p) m) k = true ↔
        k ∈ fs.map (fun f => f.name) ∨ hasKey m k = true := by
  intro fs
  induction fs with
  | nil => simp
  | cons f fs ih =>
      intro m k
      simp only [List.foldl_cons, List.map_cons, List.mem_cons]
      rw [ih, hasKey_dictInsert]
      tauto

theorem keys_nodup_funcFold (p : String) :
    ∀ (fs : List FunctionInfo) (m : List (String × String)),
      (m.map Prod.fst).Nodup →
      (((fs.foldl (fun m2 func => dictInsert m2 func.name p) m)).map
        Prod.fst).Nodup := by
  intro fs
  induction fs with
  | nil => intro m h; simpa
  | cons f fs ih =>
      intro m h
      exact ih _ (keys_nodup_dictInsert m f.name p h)

theorem hasKey_function_locations_aux :
    ∀ (rs : List (String × ParseResult)) (m : List (String × String))
      (k : String),
      hasKey (rs.foldl (fun m pr =>
        if pr.2.success then
          pr.2.functions.foldl (fun m2 func => dictInsert m2 func.name pr.1) m
        else m) m) k = true ↔
        k ∈ declaredFunNames rs ∨ hasKey m k = true := by
  intro rs
  induction rs with
  | nil => simp [declaredFunNames]
  | cons pr rs ih =>
      intro m k
      simp only [List.foldl_cons, declaredFunNames, List.flatMap_cons,
        List.mem_append]
      rw [ih]
      by_cases h : pr.2.success
      · simp only [h, if_true]
        rw [hasKey_funcFold]
        simp only [declaredFunNames]
        tauto
      · simp only [h]
        simp [declaredFunNames]

theorem hasKey_function_locations (rs : List (String × ParseResult))
    (k : String) :
    hasKey (function_locations rs) k = true ↔ k ∈ declaredFunNames rs := by
  unfold function_locations
  rw [hasKey_function_locations_aux]
  simp [hasKey]

theorem keys_nodup_function_locations_aux :
    ∀ (rs : List (String × ParseResult)) (m : List (String × String)),
      (m.map Prod.fst).Nodup →
      ((rs.foldl (fun m pr =>
        if pr.2.success then
          pr.2.functions.foldl (fun m2 func => dictInsert m2 func.name pr.1) m
        else m) m).map Prod.fst).Nodup := by
  intro rs
  induction rs with
  | nil => intro m h; simpa
  | cons pr rs ih =>
      intro m h
      simp only [List.foldl_cons]
      apply ih
      by_cases hs : pr.2.success
      · simp only [hs, if_true]
        exact keys_nodup_funcFold pr.1 pr.2.functions m h
      · simpa [hs]

theorem keys_nodup_function_locations (rs : List (String × ParseResult)) :
    ((function_locations rs).map Prod.fst).Nodup := by
  unfold function_locations
  exact keys_nodup_function_locations_aux rs [] (by simp)

theorem filterMap_const_none {α β : Type} (l : List α) :
    l.filterMap (fun _ => (none : Option β)) = [] := by
  induction l with
  | nil => rfl
  | cons a l ih =>
      rw [List.filterMap_cons]
      exact ih

theorem count_callFilter (locs : List (String × String)) (nm : String)
    (calls : List CallInfo) (a b : String) :
    List.count (a, b) (calls.filterMap (fun call =>
      if (nm != "") && hasKey locs call.func then some (nm, call.func)
      else none)) =
    if (nm == a) && (a != "") && hasKey locs b then
      calls.countP (fun c => c.func == b)
    else 0 := by
  by_cases hn : nm = ""
  · subst hn
    have hcfalse : ((("" : String) == a) && (a != "") && hasKey locs b) = false := by
      by_cases ha : a = ""
      · subst ha
        simp
      · simp [beq_iff_eq, Ne.symm ha]
    rw [hcfalse]
    simp [filterMap_const_none]
  · induction calls with
    | nil => simp
    | cons c cs ih =>
        rw [List.filterMap_cons, List.countP_cons]
        by_cases hk : hasKey locs c.func = true
        · have hcond : ((nm != "") && hasKey locs c.func) = true := by
            simp [hn, hk]
          rw [hcond]
          simp only [if_true]
          rw [List.count_cons, ih]
          by_cases hcb : c.func = b
          · subst hcb
            by_cases hna : nm = a
            · subst hna
              simp [hn, hk]
            · simp [hn, hk, hna, Ne.symm hna]
          · simp [hcb, Prod.ext_iff]
        · have hcond : ((nm != "") && hasKey locs c.func) = false := by
            simp [hk]
          rw [hcond]
          simp only [Bool.false_eq_true, if_false, ih]
          by_cases hcb : c.func = b
          · subst hcb
            simp [hk]
          · simp [hcb]

theorem count_fileEdges (locs : List (String × String))
    (pr : String × ParseResult) (a b : String) :
    List.count (a, b) (fileEdges locs pr) =
    if pr.2.success && (a != "") && hasKey locs b then
      (pr.2.functions.countP (fun f => f.name == a)) *
        (pr.2.calls.countP (fun c => c.func == b))
    else 0 := by
  unfold fileEdges
  by_cases hs : pr.2.success
  · rw [if_pos hs]
    simp only [hs, Bool.true_and]
    induction pr.2.functions with
    | nil => simp
    | cons f fs ih =>
        rw [List.flatMap_cons, List.count_append, List.countP_cons, ih,
          count_callFilter]
        by_cases hglob : ((a != "") && hasKey locs b) = true
        · by_cases hfa : f.name = a
          · simp [hfa, hglob]
            ring
          · simp [hfa, hglob]
        · have h2 : ((a != "") && hasKey locs b) = false := by
            cases h : ((a != "") && hasKey locs b) <;> simp_all
          by_cases hfa : f.name = a
          · simp [hfa, h2]
          · simp [hfa, h2]
  · rw [if_neg hs]
    simp [hs]

theorem count_flatMap_fileEdges (locs : List (String × String)) :
    ∀ (rs : List (String × ParseResult)) (a b : String),
      List.count (a, b) (rs.flatMap (fileEdges locs)) =
      if (a != "") && hasKey locs b then
        (rs.map (fun pr => if pr.2.success then
          (pr.2.functions.countP (fun f => f.name == a)) *
            (pr.2.calls.countP (fun c => c.func == b))
          else 0)).sum
      else 0 := by
  intro rs
  induction rs with
  | nil => simp
  | cons pr rs ih =>
      intro a b
      rw [List.flatMap_cons, List.count_append, ih, count_fileEdges]
      by_cases hglob : ((a != "") && hasKey locs b) = true
      · by_cases hs : pr.2.success
        · simp [hs, hglob]
        · simp [hs, hglob]
      · have h2 : ((a != "") && hasKey locs b) = false := by
          cases h : ((a != "") && hasKey locs b) <;> simp_all
        have h3 : (pr.2.success && (a != "") && hasKey locs b) = false := by
          cases hS : pr.2.success <;> cases hA : (a != "") <;>
            cases hB : hasKey locs b <;> simp_all
        simp [h2, h3]

theorem mem_fileEdges (locs : List (String × String))
    (pr : String × ParseResult) (a b : String) :
    (a, b) ∈ fileEdges locs pr ↔
      pr.2.success = true ∧ a ≠ "" ∧ hasKey locs b = true ∧
        (∃ f ∈ pr.2.functions, f.name = a) ∧
        (∃ c ∈ pr.2.calls, c.func = b) := by
  unfold fileEdges
  by_cases hs : pr.2.success
  · rw [if_pos hs]
    simp only [hs, true_and, List.mem_flatMap, List.mem_filterMap]
    constructor
    · rintro ⟨f, hf, c, hc, he⟩
      by_cases hcond : ((f.name != "") && hasKey locs c.func) = true
      · rw [if_pos hcond] at he
        simp only [Option.some.injEq, Prod.mk.injEq] at he
        obtain ⟨h1, h2⟩ := he
        subst h1
        subst h2
        simp only [Bool.and_eq_true, bne_iff_ne, ne_eq] at hcond
        exact ⟨hcond.1, hcond.2, ⟨f, hf, rfl⟩, ⟨c, hc, rfl⟩⟩
      · rw [if_neg hcond] at he
        cases he
    · rintro ⟨ha, hk, ⟨f, hf, hfa⟩, ⟨c, hc, hcb⟩⟩
      refine ⟨f, hf, c, hc, ?_⟩
      have hcond : ((f.name != "") && hasKey locs c.func) = true := by
        simp [hfa, hcb, ha, hk]
      rw [if_pos hcond, hfa, hcb]
  · rw [if_neg hs]
    simp [hs]

theorem mem_build_call_graph (rs : List (String × ParseResult))
    (a b : String) :
    (a, b) ∈ build_call_graph rs ↔
      a ≠ "" ∧ hasKey (function_locations rs) b = true ∧
        ∃ pr ∈ rs, pr.2.success = true ∧
          (∃ f ∈ pr.2.functions, f.name = a) ∧
          (∃ c ∈ pr.2.calls, c.func = b) := by
  unfold build_call_graph
  rw [List.mem_flatMap]
  constructor
  · rintro ⟨pr, hpr, hm⟩
    rw [mem_fileEdges] at hm
    obtain ⟨hs, ha, hk, hf, hc⟩ := hm
    exact ⟨ha, hk, pr, hpr, hs, hf, hc⟩
  · rintro ⟨ha, hk, pr, hpr, hs, hf, hc⟩
    refine ⟨pr, hpr, ?_⟩
    rw [mem_fileEdges]
    exact ⟨hs, ha, hk, hf, hc⟩

theorem function_locations_filter_aux :
    ∀ (rs : List (String × ParseResult)) (m : List (String × String)),
      (rs.filter (fun pr => pr.2.success)).foldl (fun m pr =>
        if pr.2.success then
          pr.2.functions.foldl (fun m2 func => dictInsert m2 func.name pr.1) m
        else m) m =
      rs.foldl (fun m pr =>
        if pr.2.success then
          pr.2.functions.foldl (fun m2 func => dictInsert m2 func.name pr.1) m
        else m) m := by
  intro rs
  induction rs with
  | nil => intro m; rfl
  | cons pr rs ih =>
      intro m
      by_cases hs : pr.2.success
      · rw [List.filter_cons_of_pos (by simpa using hs)]
        simp only [List.foldl_cons, hs, if_true]
        exact ih _
      · rw [List.filter_cons_of_neg (by simpa using hs)]
        simp only [List.foldl_cons, hs]
        simpa [hs] using ih m

theorem function_locations_filter (rs : List (String × ParseResult)) :
    function_locations (rs.filter (fun pr => pr.2.success)) =
      function_locations rs := by
  unfold function_locations
  exact function_locations_filter_aux rs []

theorem flatMap_fileEdges_filter (locs : List (String × String)) :
    ∀ (rs : List (String × ParseResult)),
      (rs.filter (fun pr => pr.2.success)).flatMap (fileEdges locs) =
        rs.flatMap (fileEdges locs) := by
  intro rs
  induction rs with
  | nil => rfl
  | cons pr rs ih =>
      by_cases hs : pr.2.success
      · rw [List.filter_cons_of_pos (by simpa using hs)]
        rw [List.flatMap_cons, List.flatMap_cons, ih]
      · rw [List.filter_cons_of_neg (by simpa using hs)]
        rw [List.flatMap_cons, ih]
        have : fileEdges locs pr = [] := by
          unfold fileEdges
          rw [if_neg hs]
        rw [this]
        rfl

theorem build_call_graph_filter (rs : List (String × ParseResult)) :
    build_call_graph (rs.filter (fun pr => pr.2.success)) =
      build_call_graph rs := by
  unfold build_call_graph
  rw [function_locations_filter, flatMap_fileEdges_filter]

theorem declaredFunNames_perm {rs1 rs2 : List (String × ParseResult)}
    (p : rs1.Perm rs2) : (declaredFunNames rs1).Perm (declaredFunNames rs2) :=
  p.flatMap_right _

theorem hasKey_function_locations_perm {rs1 rs2 : List (String × ParseResult)}
    (p : rs1.Perm rs2) (k : String) :
    hasKey (function_locations rs1) k = hasKey (function_locations rs2) k := by
  have hm := (declaredFunNames_perm p).mem_iff (a := k)
  have h1 := hasKey_function_locations rs1 k
  have h2 := hasKey_function_locations rs2 k
  cases hk1 : hasKey (function_locations rs1) k <;>
    cases hk2 : hasKey (function_locations rs2) k <;> simp_all

theorem fileEdges_congr {locs1 locs2 : List (String × String)}
    (h : ∀ k, hasKey locs1 k = hasKey locs2 k) :
    fileEdges locs1 = fileEdges locs2 := by
  funext pr
  unfold fileEdges
  by_cases hs : pr.2.success
  · rw [if_pos hs, if_pos hs]
    congr 1
    funext func
    congr 1
    funext call
    rw [h call.func]
  · rw [if_neg hs, if_neg hs]

theorem build_call_graph_perm {rs1 rs2 : List (String × ParseResult)}
    (p : rs1.Perm rs2) :
    (build_call_graph rs1).Perm (build_call_graph rs2) := by
  unfold build_call_graph
  rw [fileEdges_congr (hasKey_function_locations_perm p)]
  exact p.flatMap_right _

theorem mem_walkFS_file {d dn fn : String} {c : Except PyExc Node}
    {es : List FSNode} (hmem : FSNode.file fn c ∈ es)
    (hpy : pyEndsWith fn ".py" = true) :
    (joinRel d fn, parse_python_file c) ∈ walkFS d (.dir dn es) := by
  rw [walkFS]
  apply List.mem_append_left
  rw [List.mem_filterMap]
  refine ⟨.file fn c, hmem, ?_⟩
  simp [hpy]

/-- The file of the spec's worked example: `def foo(a, b): return bar(a)`
followed by `def bar(x): return x`. -/
def srcFooBar : Node :=
  .module [
    .functionDef "foo" 1 ["a", "b"] [] none
      [.ret (some (.call (.name "bar") [.name "a"] 1))],
    .functionDef "bar" 2 ["x"] [] none [.ret (some (.name "x"))]]

/-- Parse results for a repository holding only `srcFooBar`. -/
def rsFooBar : List (String × ParseResult) :=
  [("f.py", parse_python_file (.ok srcFooBar))]

/-- A file declaring a single function `run`. -/
def srcRunA : Node :=
  .module [.functionDef "run" 1 [] [] none [.ret none]]

/-- Two files, `a.py` and `b.py`, each declaring a function `run`. -/
def rsRunTwice : List (String × ParseResult) :=
  [("a.py", parse_python_file (.ok srcRunA)),
   ("b.py", parse_python_file (.ok srcRunA))]

/-- A file where `foo` calls `bar` three times and `bar` is declared. -/
def srcTriple : Node :=
  .module [
    .functionDef "foo" 1 [] [] none
      [.exprStmt (.call (.name "bar") [] 2),
       .exprStmt (.call (.name "bar") [] 3),
       .exprStmt (.call (.name "bar") [] 4)],
    .functionDef "bar" 5 [] [] none [.ret none]]

/-- Parse results for a repository holding only `srcTriple`. -/
def rsTriple : List (String × ParseResult) :=
  [("f.py", parse_python_file (.ok srcTriple))]

/-- A root path that does not exist (`none`) or that names a regular
file rather than a directory — the precondition of the spec's
`RootNotFoundError` clause. -/
def rootMissingOrNotDir : Option FSNode → Prop
  | none => True
  | some (.file _ _) => True
  | some (.dir _ _) => False

/-- A valid file declaring `f`, which calls itself. -/
def srcOkA : Node :=
  .module [.functionDef "f" 1 [] [] none [.exprStmt (.call (.name "f") [] 2)]]

/-- A tree mixing one valid file with one file whose parse raises a
`SyntaxError`. -/
def fsMixed : FSNode :=
  .dir "repo" [
    .file "a.py" (.ok srcOkA),
    .file "b.py" (.error (.syntaxError "invalid syntax"))]

/-- A module whose only statement is the expression `g()`. -/
def srcOneCall : Node :=
  .module [.exprStmt (.call (.name "g") [] 1)]

/-- The decorator expression `app.route` (a bare attribute access). -/
def appRouteDec : Node := .attribute (.name "app") "route"

/-- A file declaring `index` decorated with bare `@app.route`. -/
def srcFlask : Node :=
  .module [.functionDef "index" 2 [] [appRouteDec] none [.ret none]]

/-- File declaring `f` which calls `g`. -/
def srcCallsG : Node :=
  .module [.functionDef "f" 1 [] [] none [.exprStmt (.call (.name "g") [] 2)]]

/-- File declaring `g` which calls `f`. -/
def srcCallsF : Node :=
  .module [.functionDef "g" 1 [] [] none [.exprStmt (.call (.name "f") [] 2)]]

/-- The two files enumerated as `a.py` then `b.py`. -/
def rsOrderAB : List (String × ParseResult) :=
  [("a.py", parse_python_file (.ok srcCallsG)),
   ("b.py", parse_python_file (.ok srcCallsF))]

/-- The same two files enumerated in the opposite order. -/
def rsOrderBA : List (String × ParseResult) :=
  [("b.py", parse_python_file (.ok srcCallsF)),
   ("a.py", parse_python_file (.ok srcCallsG))]

/-- A file with a method `m` inside class `C` and a function `inner`
nested inside `outer`. -/
def srcNested : Node :=
  .module [
    .classDef "C" 1 [] [.functionDef "m" 2 ["self"] [] none [.ret none]],
    .functionDef "outer" 3 [] [] none
      [.functionDef "inner" 4 [] [] none [.ret none]]]

/-- C1 counterexample: for the spec's own example file
(`def foo(a, b): return bar(a)` with `def bar(x): return x`),
`build_call_graph` emits two edges, `(foo, bar)` and `(bar, bar)` — the
call sites are not restricted to their enclosing declaration, so
`bar` also appears as a caller, contradicting "exactly one edge
`(foo, bar)` and no edge with caller `bar`". -/
theorem C1_counterexample :
    build_call_graph rsFooBar = [("foo", "bar"), ("bar", "bar")] ∧
    ("bar", "bar") ∈ build_call_graph rsFooBar ∧
    build_call_graph rsFooBar ≠ [("foo", "bar")] := by
  decide

/-- C1 (amended): an edge `(a, b)` is emitted exactly when some
successfully parsed file declares a function named `a` (with `a`
truthy) and records a call to `b` anywhere in the file — regardless of
which declaration encloses the call site — and `b` is declared
somewhere in the repository.  The parser keeps no record of a call
site's enclosing declaration. -/
theorem C1_edges_pair_functions_with_file_calls
    (rs : List (String × ParseResult)) (a b : String) :
    (a, b) ∈ build_call_graph rs ↔
      a ≠ "" ∧ hasKey (function_locations rs) b = true ∧
        ∃ pr ∈ rs, pr.2.success = true ∧
          (∃ f ∈ pr.2.functions, f.name = a) ∧
          (∃ c ∈ pr.2.calls, c.func = b) := by
  exact mem_build_call_graph rs a b

/-- C2 counterexample: with two files `a.py` and `b.py` each declaring
`run`, `function_locations` holds a single entry for `run`, pointing at
`b.py` (the last file processed) — not the two entries the claim
requires. -/
theorem C2_counterexample :
    function_locations rsRunTwice = [("run", "b.py")] ∧
    List.count "run" ((function_locations rsRunTwice).map Prod.fst) = 1 := by
  decide

/-- C2 (amended): the symbol index is a dict keyed by bare name, so it
holds exactly one entry per declared function name — a later
declaration of the same name overwrites the earlier location rather
than being kept alongside it. -/
theorem C2_index_keeps_one_entry_per_name (rs : List (String × ParseResult)) :
    ((function_locations rs).map Prod.fst).Nodup ∧
    ∀ k, List.count k ((function_locations rs).map Prod.fst) =
      if k ∈ declaredFunNames rs then 1 else 0 := by
  refine ⟨keys_nodup_function_locations rs, ?_⟩
  intro k
  by_cases h : k ∈ declaredFunNames rs
  · rw [if_pos h]
    have hk : k ∈ (function_locations rs).map Prod.fst := by
      rw [← hasKey_iff_mem_keys]
      exact (hasKey_function_locations rs k).mpr h
    have h1 : List.count k ((function_locations rs).map Prod.fst) ≤ 1 :=
      List.nodup_iff_count_le_one.mp (keys_nodup_function_locations rs) k
    have h2 : 0 < List.count k ((function_locations rs).map Prod.fst) :=
      List.count_pos_iff.mpr hk
    omega
  · rw [if_neg h, List.count_eq_zero]
    intro hk
    exact h ((hasKey_function_locations rs k).mp
      ((hasKey_iff_mem_keys _ _).mpr hk))

/-- C3 counterexample: with `foo` calling `bar` three times, the output
is six separate unweighted tuples — `(foo, bar)` appears three times
(not aggregated into one weighted edge) and `(bar, bar)` also appears
three times; the list is not deduplicated, carries no weight field,
and is in construction order, not sorted. -/
theorem C3_counterexample :
    build_call_graph rsTriple =
      [("foo", "bar"), ("foo", "bar"), ("foo", "bar"),
       ("bar", "bar"), ("bar", "bar"), ("bar", "bar")] ∧
    List.count ("foo", "bar") (build_call_graph rsTriple) = 3 := by
  decide

/-- C3 (amended): the output is an unaggregated list of
`(caller, callee)` tuples in file order; the multiplicity of a pair
`(a, b)` equals the sum over successful files of
`(#functions named a) * (#calls named b)` whenever `a` is truthy and
`b` is declared somewhere, and `0` otherwise — the spec's `weight` is
realized only as tuple multiplicity. -/
theorem C3_edge_multiplicity (rs : List (String × ParseResult))
    (a b : String) :
    List.count (a, b) (build_call_graph rs) =
      if (a != "") && hasKey (function_locations rs) b then
        (rs.map (fun pr => if pr.2.success then
          (pr.2.functions.countP (fun f => f.name == a)) *
            (pr.2.calls.countP (fun c => c.func == b))
          else 0)).sum
      else 0 := by
  unfold build_call_graph
  exact count_flatMap_fileEdges (function_locations rs) rs a b

/-- C4 counterexample: for a missing root, `scan_repo_for_python`
returns the empty results dict — no `RootNotFoundError` exists anywhere
in the code — and the pipeline proceeds, producing an empty edge
list. -/
theorem C4_counterexample :
    scan_repo_for_python none = [] ∧
    build_call_graph (scan_repo_for_python none) = [] := by
  decide

/-- C4 (amended): when the root does not exist or is not a directory,
`os.walk` silently yields nothing, so the walker returns an empty
result map, raises no error, and the pipeline continues into
`build_call_graph` with those empty results, producing an empty edge
list. -/
theorem C4_missing_root_yields_empty (root : Option FSNode)
    (h : rootMissingOrNotDir root) :
    scan_repo_for_python root = [] ∧
    build_call_graph (scan_repo_for_python root) = [] := by
  match root with
  | none => exact ⟨rfl, rfl⟩
  | some (.file fn c) => exact ⟨rfl, rfl⟩
  | some (.dir dn es) => exact absurd h (by simp [rootMissingOrNotDir])

/-- C4 witness: the amended statement at the concrete missing root. -/
theorem C4_witness :
    rootMissingOrNotDir none ∧
    scan_repo_for_python none = [] ∧
    build_call_graph (scan_repo_for_python none) = [] :=
  ⟨trivial, C4_missing_root_yields_empty none trivial⟩

/-- C5: a `SyntaxError` in one file yields a per-file failure record
(`success = false` with the formatted message); every file of a
directory tree is parsed independently of its siblings, so a failing
sibling never removes another file's entry from the results; and
failed files contribute nothing to either the symbol index or the edge
list (restricting the results to successful files changes neither). -/
theorem C5_fault_isolation :
    (∀ msg, parse_python_file (.error (.syntaxError msg)) =
      { success := false, functions := [], classes := [], calls := [],
        imports := [], error := some ("Syntax error: " ++ msg) }) ∧
    (∀ (d dn fn : String) (c : Except PyExc Node) (es : List FSNode),
      FSNode.file fn c ∈ es → pyEndsWith fn ".py" = true →
      (joinRel d fn, parse_python_file c) ∈ walkFS d (.dir dn es)) ∧
    (∀ rs : List (String × ParseResult),
      function_locations (rs.filter (fun pr => pr.2.success)) =
        function_locations rs ∧
      build_call_graph (rs.filter (fun pr => pr.2.success)) =
        build_call_graph rs) := by
  refine ⟨fun msg => rfl, ?_, fun rs =>
    ⟨function_locations_filter rs, build_call_graph_filter rs⟩⟩
  intro d dn fn c es hmem hpy
  exact mem_walkFS_file hmem hpy

/-- C5 witness: the concrete mixed tree — `b.py` fails with its message
while `a.py` is still scanned, and filtering out failures leaves the
call graph of the scan unchanged. -/
theorem C5_witness :
    parse_python_file (.error (.syntaxError "invalid syntax")) =
      { success := false, functions := [], classes := [], calls := [],
        imports := [],
        error := some ("Syntax error: " ++ "invalid syntax") } ∧
    (joinRel "" "a.py", parse_python_file (.ok srcOkA)) ∈
      walkFS "" (.dir "repo"
        [.file "a.py" (.ok srcOkA),
         .file "b.py" (.error (.syntaxError "invalid syntax"))]) ∧
    build_call_graph ((scan_repo_for_python (some fsMixed)).filter
        (fun pr => pr.2.success)) =
      build_call_graph (scan_repo_for_python (some fsMixed)) :=
  ⟨C5_fault_isolation.1 "invalid syntax",
   C5_fault_isolation.2.1 "" "repo" "a.py" (.ok srcOkA) _
     (List.Mem.head _) (by decide),
   (C5_fault_isolation.2.2 _).2⟩

/-- C6: callee resolution follows the recursive dotted-name rule — a
bare identifier resolves to itself; `E.attr` resolves to
`resolve(E) ++ "." ++ attr` when `E` resolves and to `attr` alone
otherwise; a call used as a callee resolves through its own callee;
other shapes (here `Subscript`-like nodes and constants) resolve to the
empty string; `obj.method` resolves to `"obj.method"`; every recorded
call site has a nonempty resolved name (unresolvable call sites are
discarded); and every call node in a tree whose callee resolves is
recorded. -/
theorem C6_callee_resolution :
    (∀ s, get_name_from_node (.name s) = s) ∧
    (∀ e a, get_name_from_node e ≠ "" →
      get_name_from_node (.attribute e a) =
        get_name_from_node e ++ "." ++ a) ∧
    (∀ e a, get_name_from_node e = "" →
      get_name_from_node (.attribute e a) = a) ∧
    (∀ f args ln, get_name_from_node (.call f args ln) =
      get_name_from_node f) ∧
    (get_name_from_node (.attribute (.name "obj") "method") =
      "obj.method") ∧
    (∀ k cs, get_name_from_node (.other k cs) = "") ∧
    (∀ s, get_name_from_node (.constant s) = "") ∧
    (∀ tree c, c ∈ (parse_python_file (.ok tree)).calls → c.func ≠ "") ∧
    (∀ tree f args ln, SubNode (.call f args ln) tree →
      get_name_from_node f ≠ "" →
      ({ func := get_name_from_node f, lineno := ln } : CallInfo) ∈
        (parse_python_file (.ok tree)).calls) := by
  refine ⟨fun s => rfl, ?_, ?_, fun f args ln => rfl, by decide,
    fun k cs => rfl, fun s => rfl, ?_, ?_⟩
  · intro e a h
    simp [get_name_from_node, h]
  · intro e a h
    simp [get_name_from_node, h]
  · intro tree c hc
    simp only [parse_python_file] at hc
    rw [List.mem_filterMap] at hc
    obtain ⟨n, _, hn⟩ := hc
    unfold callInfoOfNode at hn
    split at hn
    · simp only at hn
      split at hn
      · rename_i hcond
        cases hn
        exact hcond
      · cases hn
    · cases hn
  · intro tree f args ln hsub h
    simp only [parse_python_file]
    rw [List.mem_filterMap]
    refine ⟨.call f args ln, mem_astWalk_of_subNode hsub, ?_⟩
    simp [callInfoOfNode, h]

/-- C6 witness: the resolution rule evaluated at `obj.method`, at an
attribute whose value is an unresolvable subscript node, and on a
concrete tree containing the call `g()` — whose record is present and
carries the nonempty name `"g"`. -/
theorem C6_witness :
    get_name_from_node (.attribute (.name "obj") "method") =
      get_name_from_node (.name "obj") ++ "." ++ "method" ∧
    get_name_from_node (.attribute (.other "Subscript" [.name "x"])
      "tolist") = "tolist" ∧
    ({ func := get_name_from_node (.name "g"), lineno := 1 } : CallInfo) ∈
      (parse_python_file (.ok srcOneCall)).calls ∧
    ({ func := "g", lineno := 1 } : CallInfo).func ≠ "" := by
  refine ⟨C6_callee_resolution.2.1 (.name "obj") "method" (by decide),
    C6_callee_resolution.2.2.1 (.other "Subscript" [.name "x"]) "tolist"
      (by decide),
    C6_callee_resolution.2.2.2.2.2.2.2.2 srcOneCall (.name "g") [] 1
      ?_ (by decide),
    C6_callee_resolution.2.2.2.2.2.2.2.1 srcOneCall
      { func := "g", lineno := 1 } ?_⟩
  · exact SubNode.step (c := .exprStmt (.call (.name "g") [] 1))
      (by simp [srcOneCall, Node.children])
      (SubNode.step (by simp [Node.children]) (SubNode.refl _))
  · decide

/-- C7: the decorator-name extractor does not apply the dotted-name
rule to a bare attribute decorator: `get_name_from_node` resolves
`app.route` to `"app.route"`, but `get_decorator_name` handles only
`Name` and `Call` nodes and falls through to Python's `str(node)`
object repr for an `Attribute` decorator, so a function decorated with
bare `@app.route` records that repr — never `"app.route"` — as its
decorator name. -/
theorem C7_decorator_attribute_divergence :
    get_name_from_node appRouteDec = "app.route" ∧
    get_decorator_name appRouteDec = reprOfNode appRouteDec ∧
    get_decorator_name appRouteDec ≠ "app.route" ∧
    (parse_python_file (.ok srcFlask)).functions.map
      (fun f => f.decorators) = [["<ast.Attribute object>"]] := by
  decide

/-- C8 counterexample: the same two files enumerated in the two
possible orders produce different edge lists — the tuples are the
same but their order follows the enumeration order, so the edge list
is not literally identical across permutations of the file
enumeration. -/
theorem C8_counterexample :
    rsOrderAB.Perm rsOrderBA ∧
    build_call_graph rsOrderAB = [("f", "g"), ("g", "f")] ∧
    build_call_graph rsOrderBA = [("g", "f"), ("f", "g")] ∧
    build_call_graph rsOrderAB ≠ build_call_graph rsOrderBA := by
  decide

/-- C8 (amended): permuting the file enumeration permutes the edge
list — the multiset of edges (hence the edge set with multiplicities)
is enumeration-order independent, but the list order is not.  (A rerun
on the identical enumeration trivially reproduces identical output,
the pipeline being a pure function of its input.) -/
theorem C8_edge_multiset_invariant (rs1 rs2 : List (String × ParseResult))
    (p : rs1.Perm rs2) :
    (build_call_graph rs1).Perm (build_call_graph rs2) :=
  build_call_graph_perm p

/-- C8 witness: the amended statement at the two concrete orders. -/
theorem C8_witness :
    rsOrderAB.Perm rsOrderBA ∧
    (build_call_graph rsOrderAB).Perm (build_call_graph rsOrderBA) :=
  ⟨by decide, C8_edge_multiset_invariant rsOrderAB rsOrderBA (by decide)⟩

/-- C9: `parse_python_file` is total over its error branch — its two
handlers turn a `SyntaxError` and any other exception into the
corresponding failure record, and every possible input yields either a
success record with no error or a failure record with a message; no
input propagates an exception. -/
theorem C9_parse_never_raises :
    (∀ e, parse_python_file (.error e) =
      { success := false, functions := [], classes := [], calls := [],
        imports := [], error := some (excMessage e) }) ∧
    (∀ input, ((parse_python_file input).success = true ∧
        (parse_python_file input).error = none) ∨
      ((parse_python_file input).success = false ∧
        ∃ m, (parse_python_file input).error = some m)) := by
  constructor
  · intro e
    rfl
  · intro input
    cases input with
    | ok tree => exact Or.inl ⟨rfl, rfl⟩
    | error e => exact Or.inr ⟨rfl, excMessage e, rfl⟩

/-- C10: every function definition occurring anywhere in a file's tree
— in particular methods inside class bodies and functions nested
inside other functions — is recorded in the file's flat `functions`
list under its bare name, and therefore keys the symbol index of any
results set containing that file. -/
theorem C10_nested_functions_indexed (root : Node) (nm : String) (ln : Nat)
    (args : List String) (decs : List Node) (rets : Option Node)
    (body : List Node)
    (hsub : SubNode (.functionDef nm ln args decs rets body) root) :
    nm ∈ (parse_python_file (.ok root)).functions.map (fun f => f.name) ∧
    ∀ (rs : List (String × ParseResult)) (p : String),
      (p, parse_python_file (.ok root)) ∈ rs →
      hasKey (function_locations rs) nm = true := by
  have hwalk := mem_astWalk_of_subNode hsub
  have hmemf :
      ({ name := nm, lineno := ln, args := args,
         decorators := decs.map get_decorator_name,
         returns := rets.map get_annotation_name,
         docstring := get_docstring body } : FunctionInfo) ∈
        (parse_python_file (.ok root)).functions := by
    simp only [parse_python_file]
    rw [List.mem_filterMap]
    exact ⟨_, hwalk, rfl⟩
  constructor
  · rw [List.mem_map]
    exact ⟨_, hmemf, rfl⟩
  · intro rs p hmemrs
    rw [hasKey_function_locations]
    unfold declaredFunNames
    rw [List.mem_flatMap]
    refine ⟨(p, parse_python_file (.ok root)), hmemrs, ?_⟩
    have hsucc : (parse_python_file (.ok root)).success = true := rfl
    simp only [hsucc, if_true]
    rw [List.mem_map]
    exact ⟨_, hmemf, rfl⟩

/-- C10 witness: in the concrete file, the class method `m` and the
nested function `inner` both appear in the flat functions list, and
`inner` keys the symbol index of a results set holding the file. -/
theorem C10_witness :
    ("m" ∈ (parse_python_file (.ok srcNested)).functions.map
      (fun f => f.name)) ∧
    ("inner" ∈ (parse_python_file (.ok srcNested)).functions.map
      (fun f => f.name)) ∧
    hasKey (function_locations
      [("n.py", parse_python_file (.ok srcNested))]) "inner" = true := by
  have hm := C10_nested_functions_indexed srcNested "m" 2 ["self"] [] none
    [.ret none]
    (SubNode.step (c := .classDef "C" 1 []
        [.functionDef "m" 2 ["self"] [] none [.ret none]])
      (by simp [srcNested, Node.children])
      (SubNode.step (by simp [Node.children]) (SubNode.refl _)))
  have hi := C10_nested_functions_indexed srcNested "inner" 4 [] [] none
    [.ret none]
    (SubNode.step (c := .functionDef "outer" 3 [] [] none
        [.functionDef "inner" 4 [] [] none [.ret none]])
      (by simp [srcNested, Node.children])
      (SubNode.step (by simp [Node.children]) (SubNode.refl _)))
  exact ⟨hm.1, hi.1, hi.2 _ "n.py" (List.Mem.head _)⟩

end CodebaseGenius
